import Mathlib

/-!
Verification of the news-digest curation pipeline implemented in `src/main.py`.

Strings are modelled as `List Char`.  The helper `lc` converts a Lean string
literal into this representation.  Python's `str.lower` is modelled by
`pyLower` (ASCII and the Latin-1 letters relevant to the program's alphabets;
other characters are left unchanged).  Python whitespace is modelled by
`pyIsSpace` (the full `str.isspace()` codepoint set, which is also what
`str.strip()`, `str.split()` and `re` `\s` use on `str`).
-/

set_option maxRecDepth 40000

def lc (s : String) : List Char := s.data

/-- Whitespace as used by Python's `str.strip`, `str.split()` and `re` `\s`
on `str`: the codepoints for which `str.isspace()` holds — tab through
carriage return (9–13), the separators FS/GS/RS/US and space (28–32), NEL
(133), no-break space (160), the Ogham space mark (5760), the en-quad
through hair-space range (8192–8202), line and paragraph separators
(8232, 8233), the narrow no-break space (8239), the medium mathematical
space (8287) and the ideographic space (12288). -/
def pyIsSpace (c : Char) : Bool :=
  (9 ≤ c.toNat && c.toNat ≤ 13) || (28 ≤ c.toNat && c.toNat ≤ 32) ||
  c.toNat = 133 || c.toNat = 160 || c.toNat = 5760 ||
  (8192 ≤ c.toNat && c.toNat ≤ 8202) || c.toNat = 8232 || c.toNat = 8233 ||
  c.toNat = 8239 || c.toNat = 8287 || c.toNat = 12288

/-- Model of Python `str.lower` on a single character: the ASCII letters
`A`-`Z` (65-90), the Latin-1 uppercase range (192-222, excluding the
multiplication sign 215), and the few other uppercase codepoints relevant to
the alphabets this program manipulates (376, 338, 401, and the Kelvin sign
8490).  All other characters are unchanged. -/
def pyLower (c : Char) : Char :=
  if 65 ≤ c.toNat ∧ c.toNat ≤ 90 then Char.ofNat (c.toNat + 32)
  else if 192 ≤ c.toNat ∧ c.toNat ≤ 222 ∧ c.toNat ≠ 215 then
    Char.ofNat (c.toNat + 32)
  else if c.toNat = 376 then Char.ofNat 255
  else if c.toNat = 338 then Char.ofNat 339
  else if c.toNat = 401 then Char.ofNat 402
  else if c.toNat = 8490 then Char.ofNat 107
  else c

/-- The character class kept by `norm`'s second `re.sub`
(`[^a-z0-9ăâîșț\- ]+` in the source file's own encoding: the literal contains
the codepoints U+00C4 U+0192 U+00C3 U+00A2 U+00C3 U+00AE U+00C8 U+2122
U+00C8 U+203A). -/
def allowedChar (c : Char) : Bool :=
  ('a' ≤ c && c ≤ 'z') || ('0' ≤ c && c ≤ '9') ||
  c = 'Ä' || c = 'ƒ' || c = 'Ã' || c = '¢' ||
  c = '®' || c = 'È' || c = '™' || c = '›' ||
  c = '-' || c = ' '

/-- Python `str.rstrip()` (trailing whitespace removed). -/
def pyStripRight : List Char → List Char
  | [] => []
  | c :: rest =>
    let r := pyStripRight rest
    if r = [] ∧ pyIsSpace c then [] else c :: r

/-- Python `str.strip()` (leading and trailing whitespace removed). -/
def pyStripBoth (xs : List Char) : List Char :=
  pyStripRight (xs.dropWhile pyIsSpace)

/-- Python `text.split("\n")`. -/
def splitNl : List Char → List (List Char)
  | [] => [[]]
  | c :: rest =>
    if c = '\n' then [] :: splitNl rest
    else (c :: (splitNl rest).headI) :: (splitNl rest).tail

/-- `TELEGRAM_MAX` from `src/main.py`. -/
def TELEGRAM_MAX : Nat := 3800

/-- The accumulator loop of `split` in `src/main.py`: `parts` and `cur` are
threaded through the lines of the blob exactly as in the source. -/
def splitGo (parts : List (List Char)) (cur : List Char) :
    List (List Char) → List (List Char)
  | [] => if (pyStripBoth cur).isEmpty then parts else parts ++ [pyStripRight cur]
  | line :: rest =>
    if cur.length + line.length + 1 > TELEGRAM_MAX then
      splitGo
        (if (pyStripBoth cur).isEmpty then parts else parts ++ [pyStripRight cur])
        (line ++ ['\n']) rest
    else
      splitGo parts (cur ++ line ++ ['\n']) rest

/-- `split` from `src/main.py`. -/
def split (text : List Char) : List (List Char) :=
  splitGo [] [] (splitNl text)

example : splitNl (lc "a\nb\n") = [lc "a", lc "b", []] := by decide
example : split (lc "ab\ncd") = [lc "ab\ncd"] := by decide
example : split (lc " ") = [] := by decide
example : pyStripBoth (lc "  a b  ") = lc "a b" := by decide
example : pyIsSpace (Char.ofNat 160) = true := by decide
example : split ['a', Char.ofNat 160] = [['a']] := by decide

/-- Scanner for `re.sub(r"<[^>]+>", " ", text)`: `none` means we are outside a
candidate tag; `some acc` means a `<` was read and `acc` holds the characters
read since (in reverse), none of which was `>`.  A closed non-empty tag is
replaced by a single space; a `<` that never closes (or closes immediately as
`<>`) is kept literally, exactly as the regex leaves it unmatched. -/
def stripTagsGo : Option (List Char) → List Char → List Char
  | none, [] => []
  | none, c :: rest =>
    if c = '<' then stripTagsGo (some []) rest else c :: stripTagsGo none rest
  | some acc, [] => '<' :: acc.reverse
  | some acc, c :: rest =>
    if c = '>' then
      if acc = [] then '<' :: '>' :: stripTagsGo none rest
      else ' ' :: stripTagsGo none rest
    else stripTagsGo (some (c :: acc)) rest

/-- Model of `re.sub(r"<[^>]+>", " ", text)` in `norm`. -/
def stripTags (xs : List Char) : List Char := stripTagsGo none xs

/-- Scanner for `re.sub(r"[^a-z0-9ăâîșț\- ]+", " ", text)`: a maximal run of
disallowed characters becomes a single space; the flag records whether the
previous character was part of such a run. -/
def stripBadGo : Bool → List Char → List Char
  | _, [] => []
  | inRun, c :: rest =>
    if allowedChar c then c :: stripBadGo false rest
    else if inRun then stripBadGo true rest
    else ' ' :: stripBadGo true rest

/-- Model of `re.sub(r"[^a-z0-9ăâîșț\- ]+", " ", text)` in `norm`. -/
def stripBad (xs : List Char) : List Char := stripBadGo false xs

/-- Scanner for `re.sub(r"\s+", " ", text)`: a maximal run of whitespace
becomes a single space. -/
def collapseGo : Bool → List Char → List Char
  | _, [] => []
  | inRun, c :: rest =>
    if pyIsSpace c then
      if inRun then collapseGo true rest else ' ' :: collapseGo true rest
    else c :: collapseGo false rest

/-- Model of `re.sub(r"\s+", " ", text)` in `norm`. -/
def collapseWs (xs : List Char) : List Char := collapseGo false xs

/-- `norm` from `src/main.py`: lowercase, drop HTML-like tags, replace runs of
characters outside the permitted class by a space, collapse whitespace runs,
strip. -/
def norm (text : List Char) : List Char :=
  pyStripBoth (collapseWs (stripBad (stripTags (text.map pyLower))))

/-- `needle` occurs at the start of `hay`. -/
def startsList : List Char → List Char → Bool
  | [], _ => true
  | _ :: _, [] => false
  | a :: as, b :: bs => a = b && startsList as bs

/-- Python's substring test `needle in hay`. -/
def hasSub : List Char → List Char → Bool
  | n, [] => n.isEmpty
  | n, c :: rest => startsList n (c :: rest) || hasSub n rest

/-- `any_kw_in` from `src/main.py`. -/
def any_kw_in (text : List Char) (kws : List (List Char)) : Bool :=
  let t := norm text
  kws.any fun k =>
    let kk := norm k
    !kk.isEmpty && hasSub kk t

/-- `classify` from `src/main.py`.  The source returns a Python `set` built
from the keys of a `dict`; we model the categories as an association list (in
insertion order, keys distinct) and the result as the list of matching keys. -/
def classify (title summary : List Char)
    (categories : List (List Char × List (List Char))) : List (List Char) :=
  let hay := title ++ ' ' :: summary
  (categories.filter fun r => !r.2.isEmpty && any_kw_in hay r.2).map Prod.fst

/-- The diacritics string `"ăâîșț"` as it actually appears in the source file
(mojibake codepoints). -/
def roDiacritics : List Char :=
  lc "ÄƒÃ¢Ã®È™È›"

/-- The `ro_words` list from `src/main.py` (exact codepoints of the source
file). -/
def roWords : List (List Char) :=
  [lc " È™i ", lc " Ã®n ", lc " la ", lc " pentru ",
   lc " din ", lc " cu ", lc " pe ", lc " despre "]

/-- `is_romanian` from `src/main.py`. -/
def is_romanian (title : List Char) : Bool :=
  let t := title.map pyLower
  if roDiacritics.any fun c => t.contains c then true
  else roWords.any fun w => hasSub w (' ' :: t ++ [' '])

example : norm (lc "  Hello, <b>World</b>!  ") = lc "hello world" := by decide
example : norm (lc "A--b  c") = lc "a--b c" := by decide
example : any_kw_in (lc "Parliament debates") [lc "PARLIAMENT"] = true := by decide
example : any_kw_in (lc "abc") [lc "!!"] = false := by decide
example : is_romanian (lc "Guvernul la palat") = true := by decide
example : is_romanian (lc "") = false := by decide
example : classify (lc "Vote today") (lc "markets rally")
    [(lc "politics", [lc "vote"]), (lc "economy", [lc "markets"]),
     (lc "technology", [lc "ai"])] = [lc "politics", lc "economy"] := by decide

/-- Python `s.split()` (split on whitespace runs, no empty tokens): `acc`
holds the current token in reverse. -/
def wordsGo : List Char → List Char → List (List Char)
  | acc, [] => if acc.isEmpty then [] else [acc.reverse]
  | acc, c :: rest =>
    if pyIsSpace c then
      if acc.isEmpty then wordsGo [] rest else acc.reverse :: wordsGo [] rest
    else wordsGo (c :: acc) rest

/-- Python `s.split()`. -/
def pySplitWs (xs : List Char) : List (List Char) := wordsGo [] xs

/-- Lexicographic comparison of character lists, used to model Python's
`sorted` on the token sets. -/
def lexLe : List Char → List Char → Bool
  | [], _ => true
  | _ :: _, [] => false
  | a :: as, b :: bs => if a = b then lexLe as bs else decide (a < b)

/-- Insertion sort by `lexLe`, modelling Python's `sorted`. -/
def sortToks : List (List Char) → List (List Char)
  | [] => []
  | t :: rest => insertTok t (sortToks rest)
where
  insertTok (t : List Char) : List (List Char) → List (List Char)
    | [] => [t]
    | u :: us => if lexLe t u then t :: u :: us else u :: insertTok t us

/-- The distinct, sorted word tokens of a string (`sorted(set(s.split()))`). -/
def tokensOf (s : List Char) : List (List Char) :=
  sortToks (pySplitWs s).dedup

/-- Words joined by single spaces (`" ".join(...)`). -/
def joinSp : List (List Char) → List Char
  | [] => []
  | [w] => w
  | w :: rest => w ++ ' ' :: joinSp rest

/-- Indel (insert/delete) edit distance between two character lists, the
distance underlying `fuzz.ratio` in rapidfuzz. -/
def indel : List Char → List Char → Nat
  | [], ys => ys.length
  | xs, [] => xs.length
  | x :: xs, y :: ys =>
    if x = y then indel xs ys
    else 1 + min (indel (x :: xs) ys) (indel xs (y :: ys))
termination_by xs ys => xs.length + ys.length
decreasing_by all_goals simp_arith

/-- Normalized indel similarity on a 0–100 scale (`fuzz.ratio`), computed
exactly over ℚ (the external library uses floating point). -/
def ratioQ (a b : List Char) : ℚ :=
  if a.length + b.length = 0 then 100
  else 100 * ((a.length + b.length : ℚ) - indel a b) / (a.length + b.length)

/-- Model of the external `rapidfuzz.fuzz.token_set_ratio` collaborator:
distinct sorted whitespace tokens of each side; if the token sets are equal,
or one side's tokens are a subset of the other's with a non-empty
intersection, the score is 100; otherwise the maximum pairwise `ratioQ` of
the joined combinations intersection / intersection+leftdiff /
intersection+rightdiff. -/
def token_set_ratio (a b : List Char) : ℚ :=
  let ta := tokensOf a
  let tb := tokensOf b
  let sect := ta.filter fun t => tb.contains t
  let dab := ta.filter fun t => !tb.contains t
  let dba := tb.filter fun t => !ta.contains t
  if dab.isEmpty ∧ dba.isEmpty then 100
  else if ¬sect.isEmpty ∧ (dab.isEmpty ∨ dba.isEmpty) then 100
  else
    let t0 := joinSp sect
    let t1 := joinSp (sect ++ dab)
    let t2 := joinSp (sect ++ dba)
    max (ratioQ t0 t1) (max (ratioQ t0 t2) (ratioQ t1 t2))

/-- A `CandidateItem` as built in `process` in `src/main.py`
(`{"title": title, "link": link, "source": src}`). -/
structure Item where
  title : List Char
  link : List Char
  source : List Char
deriving DecidableEq

/-- The accumulator loop of `dedupe` in `src/main.py`. -/
def dedupeGo (threshold : Int) (out : List Item) : List Item → List Item
  | [] => out
  | it :: rest =>
    if out.any fun o =>
        decide (token_set_ratio (norm it.title) (norm o.title) ≥ (threshold : ℚ)) then
      dedupeGo threshold out rest
    else
      dedupeGo threshold (out ++ [it]) rest

/-- `dedupe` from `src/main.py`. -/
def dedupe (items : List Item) (threshold : Int) : List Item :=
  dedupeGo threshold [] items

example : token_set_ratio (lc "a b") (lc "b a") = 100 := by decide
example : dedupe [⟨lc "PM resigns", lc "l1", lc "s"⟩,
                  ⟨lc "pm  resigns", lc "l2", lc "s"⟩] 90 =
    [⟨lc "PM resigns", lc "l1", lc "s"⟩] := by decide

/-- A raw feed entry as consumed by `process` (the `title`/`summary`/`link`
attributes of a feedparser entry; an absent attribute is the empty string). -/
structure Entry where
  title : List Char
  summary : List Char
  link : List Char
deriving DecidableEq

/-- A configured feed (`{name, url}`). -/
structure Feed where
  name : List Char
  url : List Char
deriving DecidableEq

/-- The two bucket regions of `main` in `src/main.py`. -/
inductive Region where
  | romania
  | world
deriving DecidableEq

/-- The configuration values read at the top of `main`.  Counts are modelled
as naturals (the configuration is expected to hold non-negative counts); the
dedupe threshold keeps its integer type. -/
structure Config where
  items_per_feed : Nat
  max_items_per_section : Nat
  dedupe_threshold : Int
  exclude_any : List (List Char)
  categories : List (List Char × List (List Char))

/-- `selected` from `main`. -/
def selected : List (List Char) := [lc "politics", lc "economy", lc "technology"]

/-- Buckets, keyed by region and category name.  `main` materialises only the
keys in `selected`; unmentioned keys are the empty list here. -/
def Buckets : Type := Region → List Char → List Item

/-- The initial empty buckets of `main`. -/
def emptyBuckets : Buckets := fun _ _ => []

/-- The categories an entry is bucketed under:
`classify(title, summary, categories) & set(selected)` (as a duplicate-free
list, modelling the Python set). -/
def matchedSel (cfg : Config) (e : Entry) : List (List Char) :=
  ((classify (pyStripBoth e.title) (pyStripBoth e.summary) cfg.categories).filter
      fun c => selected.contains c).dedup

/-- The per-entry body of `process` in `main`: exclusion filter, the Romanian
language gate, classification, then append to each matched bucket. -/
def processEntry (cfg : Config) (region : Region) (src : List Char) (e : Entry)
    (B : Buckets) : Buckets :=
  let title := pyStripBoth e.title
  let summary := pyStripBoth e.summary
  let link := pyStripBoth e.link
  let hay := title ++ ' ' :: summary ++ ' ' :: link
  if !cfg.exclude_any.isEmpty && any_kw_in hay cfg.exclude_any then B
  else if decide (region = Region.romania) && !title.isEmpty && !is_romanian title then B
  else
    let matched := matchedSel cfg e
    if matched.isEmpty then B
    else fun r c =>
      if r = region ∧ c ∈ matched then B r c ++ [⟨title, link, src⟩] else B r c

/-- `process` for one feed: the fetch collaborator's entries are supplied as
input (`fetch` slices them to `items_per_feed`); a feed without a URL is
skipped. -/
def processFeed (cfg : Config) (region : Region) (feed : Feed)
    (entries : List Entry) (B : Buckets) : Buckets :=
  let src := pyStripBoth feed.name
  let url := pyStripBoth feed.url
  if url.isEmpty then B
  else (entries.take cfg.items_per_feed).foldl
    (fun b e => processEntry cfg region src e b) B

/-- The collection pass of `main`: the configured feeds in iteration order,
each paired with the entries its fetch produced. -/
def collectAll (cfg : Config) (runs : List (Region × Feed × List Entry)) : Buckets :=
  runs.foldl (fun b rfe => processFeed cfg rfe.1 rfe.2.1 rfe.2.2 b) emptyBuckets

/-- The dedupe-and-cap pass of `main`:
`buckets[region][cat] = dedupe(...)[:max_items_per_section]`. -/
def dedupeCap (cfg : Config) (B : Buckets) : Buckets :=
  fun r c => (dedupe (B r c) cfg.dedupe_threshold).take cfg.max_items_per_section

/-- The run's buckets after collection, dedupe and capping. -/
def finalBuckets (cfg : Config) (runs : List (Region × Feed × List Entry)) : Buckets :=
  dedupeCap cfg (collectAll cfg runs)

/-- `html.escape` (with quoting) as used by `render_item` and `main`. -/
def escChar (c : Char) : List Char :=
  if c = '&' then lc "&amp;"
  else if c = '<' then lc "&lt;"
  else if c = '>' then lc "&gt;"
  else if c = Char.ofNat 34 then lc "&quot;"
  else if c = Char.ofNat 39 then lc "&#x27;"
  else [c]

/-- `html.escape` on a whole string. -/
def escape (xs : List Char) : List Char := xs.flatMap escChar

/-- The `"(fără titlu)"` placeholder of `render_item` (exact source
codepoints). -/
def noTitleText : List Char := lc "(fÄƒrÄƒ titlu)"

/-- `render_item` from `src/main.py`. -/
def render_item (it : Item) : List Char :=
  let title := escape (if it.title.isEmpty then noTitleText else it.title)
  let link := escape it.link
  let src := escape it.source
  if !link.isEmpty then
    lc "  - " ++ title ++ lc " â€” <a href=" ++ [Char.ofNat 34] ++
      link ++ [Char.ofNat 34] ++ lc ">CiteÈ™te</a> <i>(" ++ src ++ lc ")</i>"
  else
    lc "  - " ++ title ++ lc " <i>(" ++ src ++ lc ")</i>"

/-- Lines joined by `"\n"` (`"\n".join(...)`). -/
def joinNl : List (List Char) → List Char
  | [] => []
  | [l] => l
  | l :: rest => l ++ '\n' :: joinNl rest

/-- The fixed `order` list of `render_region` (category key, display label;
exact source codepoints). -/
def orderList : List (List Char × List Char) :=
  [(lc "politics", lc "ğŸ›ï¸ PoliticÄƒ"),
   (lc "economy", lc "ğŸ“ˆ Economie"),
   (lc "technology", lc "ğŸ§  Tehnologie & InovaÈ›ie")]

/-- The `"• (nimic relevant după filtrare)"` placeholder line of
`render_region` (exact source codepoints). -/
def placeholderLine : List Char :=
  lc "â€¢ (nimic relevant dupÄƒ filtrare)"

/-- One category section of `render_region` (label line, item lines, blank
separator). -/
def catBlock (items : List Item) (catLabel : List Char) : List Char :=
  lc "â€¢ <b>" ++ escape catLabel ++ lc "</b>\n" ++
    joinNl (items.map render_item) ++ lc "\n\n"

/-- `render_region` from `main`: the text appended to `msg` for one region. -/
def render_region (B : Buckets) (region : Region) (label emoji : List Char) :
    List Char :=
  let sections := orderList.foldl
    (fun s p => if (B region p.1).isEmpty then s else s ++ catBlock (B region p.1) p.2) []
  let anyRegion := orderList.any fun p => !(B region p.1).isEmpty
  emoji ++ lc " <b>" ++ escape label ++ lc "</b>\n" ++ sections ++
    (if anyRegion then [] else placeholderLine ++ lc "\n\n")

/-- The header prefix of the message assembled by `main`, up to the escaped
date stamp (exact source codepoints). -/
def hdrPre : List Char := lc "ğŸ—ï¸ <b>Daily Brief â€” "

/-- The part of the message after the escaped date stamp: the close of the
header, then the Romania and world sections (labels and emoji in the exact
source codepoints). -/
def msgTail (B : Buckets) : List Char :=
  lc "</b>\n\n" ++
    (render_region B Region.romania (lc "RomÃ¢nia")
        (lc "ğŸ‡·ğŸ‡´") ++
      render_region B Region.world (lc "Global") (lc "ğŸŒ"))

/-- The full message assembled by `main` before splitting: header with the
localized date stamp, then the Romania and world sections. -/
def renderMsg (today : List Char) (B : Buckets) : List Char :=
  hdrPre ++ (escape today ++ msgTail B)

example :
    (splitNl (renderMsg (lc "12 Oct 2025") emptyBuckets)).count placeholderLine
      = 2 := by decide

/-! ### Substring characterization (claim C5) -/

lemma startsList_iff (n : List Char) : ∀ h : List Char,
    startsList n h = true ↔ ∃ post, h = n ++ post := by
  induction n with
  | nil => intro h; simp [startsList]
  | cons a as ih =>
    intro h
    cases h with
    | nil => simp [startsList]
    | cons b bs =>
      simp only [startsList, Bool.and_eq_true, decide_eq_true_eq, ih,
        List.cons_append, List.cons.injEq]
      constructor
      · rintro ⟨rfl, post, rfl⟩; exact ⟨post, rfl, rfl⟩
      · rintro ⟨post, rfl, rfl⟩; exact ⟨rfl, post, rfl⟩

lemma hasSub_iff (n : List Char) : ∀ h : List Char,
    hasSub n h = true ↔ ∃ pre post, h = pre ++ n ++ post := by
  intro h
  induction h with
  | nil =>
    simp only [hasSub, List.isEmpty_eq_true]
    constructor
    · rintro rfl; exact ⟨[], [], rfl⟩
    · rintro ⟨pre, post, hp⟩
      rcases List.append_eq_nil.mp (List.append_eq_nil.mp hp.symm).1 with ⟨-, h2⟩
      exact h2
  | cons c rest ih =>
    simp only [hasSub, Bool.or_eq_true, startsList_iff, ih]
    constructor
    · rintro (⟨post, hp⟩ | ⟨pre, post, hp⟩)
      · exact ⟨[], post, by simpa using hp⟩
      · exact ⟨c :: pre, post, by simp [hp]⟩
    · rintro ⟨pre, post, hp⟩
      cases pre with
      | nil => exact Or.inl ⟨post, by simpa using hp⟩
      | cons d pre' =>
        rcases List.cons.injEq .. ▸ hp with ⟨-, h2⟩
        exact Or.inr ⟨pre', post, h2⟩

/-- Claim C5: `any_kw_in(text, keywords)` is true exactly when some keyword
with a non-empty normalization occurs, normalized, as a contiguous substring
of the normalized text; an empty keyword list — and, likewise, a keyword that
normalizes to the empty string — yields false. -/
theorem any_kw_in_characterization (text : List Char) (kws : List (List Char)) :
    (any_kw_in text kws = true ↔
      ∃ k ∈ kws, norm k ≠ [] ∧
        ∃ pre post, norm text = pre ++ norm k ++ post) ∧
    any_kw_in text [] = false := by
  refine ⟨?_, rfl⟩
  simp only [any_kw_in, List.any_eq_true, Bool.and_eq_true, Bool.not_eq_true',
    List.isEmpty_eq_false, hasSub_iff]

/-! ### Classification monotonicity (claim C8) -/

/-- Appending one keyword to the `include_any` list of category `cat`. -/
def addKw (categories : List (List Char × List (List Char)))
    (cat k : List Char) : List (List Char × List (List Char)) :=
  categories.map fun r => if r.1 = cat then (r.1, r.2 ++ [k]) else r

lemma any_kw_in_append (t : List Char) (a b : List (List Char)) :
    any_kw_in t (a ++ b) = (any_kw_in t a || any_kw_in t b) := by
  simp [any_kw_in, List.any_append]

/-- Claim C8: classification is monotone in the keyword set — a category kept
by `classify` is still kept after appending any keyword to that category's
`include_any` list. -/
theorem classify_monotone (title summary : List Char)
    (cats : List (List Char × List (List Char))) (c k : List Char)
    (h : c ∈ classify title summary cats) :
    c ∈ classify title summary (addKw cats c k) := by
  simp only [classify, List.mem_map] at h
  obtain ⟨r, hr, rfl⟩ := h
  rw [List.mem_filter] at hr
  obtain ⟨hmem, hp⟩ := hr
  simp only [Bool.and_eq_true, Bool.not_eq_true', List.isEmpty_eq_false] at hp
  simp only [classify, List.mem_map]
  refine ⟨(r.1, r.2 ++ [k]), ?_, rfl⟩
  rw [List.mem_filter]
  constructor
  · simp only [addKw, List.mem_map]
    exact ⟨r, hmem, by simp⟩
  · simp [any_kw_in_append, hp.2]

theorem classify_monotone_witness :
    lc "politics" ∈ classify (lc "Vote today") (lc "markets")
      [(lc "politics", [lc "vote"])] ∧
    lc "politics" ∈ classify (lc "Vote today") (lc "markets")
      (addKw [(lc "politics", [lc "vote"])] (lc "politics") (lc "senate")) :=
  ⟨by decide, classify_monotone _ _ _ _ (lc "senate") (by decide)⟩

/-! ### Exclusion precedence (claim C3) -/

/-- Claim C3: an entry whose haystack (title, summary and link) matches a
keyword of a non-empty exclusion list leaves the buckets untouched — it is
dropped before classification and enters no bucket of the run. -/
theorem excluded_entry_no_op (cfg : Config) (region : Region) (src : List Char)
    (e : Entry) (B : Buckets)
    (h1 : cfg.exclude_any ≠ [])
    (h2 : any_kw_in
        (pyStripBoth e.title ++ ' ' :: pyStripBoth e.summary ++
          ' ' :: pyStripBoth e.link) cfg.exclude_any = true) :
    processEntry cfg region src e B = B := by
  have hb : (!cfg.exclude_any.isEmpty &&
      any_kw_in (pyStripBoth e.title ++ ' ' :: pyStripBoth e.summary ++
        ' ' :: pyStripBoth e.link) cfg.exclude_any) = true := by
    rw [h2, List.isEmpty_eq_false.mpr h1]; rfl
  simp only [processEntry, hb, if_true]

theorem excluded_entry_no_op_witness :
    ([lc "murder"] ≠ ([] : List (List Char))) ∧
    any_kw_in
      (pyStripBoth (lc "Parliament debates murder trial") ++
        ' ' :: pyStripBoth (lc "a summary") ++ ' ' :: pyStripBoth (lc "http-x"))
      [lc "murder"] = true ∧
    processEntry ⟨15, 10, 92, [lc "murder"], [(lc "politics", [lc "parliament"])]⟩
      Region.world (lc "src")
      ⟨lc "Parliament debates murder trial", lc "a summary", lc "http-x"⟩
      emptyBuckets = emptyBuckets :=
  ⟨by decide, by decide,
    excluded_entry_no_op _ _ _ _ _ (by decide) (by decide)⟩

/-! ### Empty-title entries skip the language gate (claim C10) -/

/-- Claim C10: in the `romania` region the language gate is short-circuited
for an entry whose (stripped) title is empty: such an entry is never dropped
by the language check and, when it is not excluded and matches a selected
category, its item enters the romania bucket — even though `is_romanian`
itself rejects the empty title. -/
theorem empty_title_skips_language_gate (cfg : Config) (src : List Char)
    (e : Entry) (B : Buckets) (c : List Char)
    (ht : pyStripBoth e.title = [])
    (hx : (!cfg.exclude_any.isEmpty &&
        any_kw_in (pyStripBoth e.title ++ ' ' :: pyStripBoth e.summary ++
          ' ' :: pyStripBoth e.link) cfg.exclude_any) = false)
    (hc : c ∈ matchedSel cfg e) :
    (⟨[], pyStripBoth e.link, src⟩ : Item) ∈
        processEntry cfg Region.romania src e B Region.romania c ∧
    is_romanian (pyStripBoth e.title) = false := by
  refine ⟨?_, by rw [ht]; decide⟩
  have hm : (matchedSel cfg e).isEmpty = false :=
    List.isEmpty_eq_false.mpr (List.ne_nil_of_mem hc)
  rw [ht] at hx
  simp only [processEntry, hx, Bool.false_eq_true, if_false, ht,
    List.isEmpty_nil, Bool.not_true, Bool.and_false, Bool.false_and, hm,
    Bool.not_false, if_true]
  simp [hc]

theorem empty_title_skips_language_gate_witness :
    pyStripBoth (lc "  ") = ([] : List Char) ∧
    ((!([] : List (List Char)).isEmpty &&
        any_kw_in (pyStripBoth (lc "  ") ++ ' ' :: pyStripBoth (lc "alegeri azi") ++
          ' ' :: pyStripBoth (lc "http-y")) []) = false) ∧
    lc "politics" ∈ matchedSel ⟨15, 10, 92, [], [(lc "politics", [lc "alegeri"])]⟩
      ⟨lc "  ", lc "alegeri azi", lc "http-y"⟩ ∧
    (⟨[], pyStripBoth (lc "http-y"), lc "src"⟩ : Item) ∈
      processEntry ⟨15, 10, 92, [], [(lc "politics", [lc "alegeri"])]⟩
        Region.romania (lc "src") ⟨lc "  ", lc "alegeri azi", lc "http-y"⟩
        emptyBuckets Region.romania (lc "politics") ∧
    is_romanian (pyStripBoth (lc "  ")) = false := by
  refine ⟨by decide, by decide, by decide, ?_, ?_⟩
  · exact (empty_title_skips_language_gate _ _ _ _ _ (by decide) (by decide)
      (by decide)).1
  · exact (empty_title_skips_language_gate
      ⟨15, 10, 92, [], [(lc "politics", [lc "alegeri"])]⟩ (lc "src")
      ⟨lc "  ", lc "alegeri azi", lc "http-y"⟩ emptyBuckets (lc "politics")
      (by decide) (by decide) (by decide)).2

/-! ### Dedupe idempotence (claim C4) and bucket distinctness (claim C6) -/

lemma dedupeGo_pairwise (t : Int) (items : List Item) : ∀ out : List Item,
    (out.Pairwise fun a b =>
      ¬ token_set_ratio (norm b.title) (norm a.title) ≥ (t : ℚ)) →
    ((dedupeGo t out items).Pairwise fun a b =>
      ¬ token_set_ratio (norm b.title) (norm a.title) ≥ (t : ℚ)) := by
  induction items with
  | nil => intro out h; simpa [dedupeGo] using h
  | cons it rest ih =>
    intro out h
    simp only [dedupeGo]
    split
    · exact ih out h
    · rename_i hany
      rw [Bool.not_eq_true, List.any_eq_false] at hany
      refine ih (out ++ [it]) (List.pairwise_append.mpr ⟨h, by simp, ?_⟩)
      intro a ha b hb
      rcases List.mem_singleton.mp hb with rfl
      have := hany a ha
      simpa using this

lemma dedupeGo_eq_append (t : Int) (items : List Item) : ∀ out : List Item,
    (∀ o ∈ out, ∀ x ∈ items,
      ¬ token_set_ratio (norm x.title) (norm o.title) ≥ (t : ℚ)) →
    (items.Pairwise fun a b =>
      ¬ token_set_ratio (norm b.title) (norm a.title) ≥ (t : ℚ)) →
    dedupeGo t out items = out ++ items := by
  induction items with
  | nil => intro out _ _; simp [dedupeGo]
  | cons it rest ih =>
    intro out h1 h2
    have hany : (out.any fun o =>
        decide (token_set_ratio (norm it.title) (norm o.title) ≥ (t : ℚ))) =
          false := by
      rw [List.any_eq_false]
      intro o ho
      simpa using h1 o ho it (by simp)
    rw [List.pairwise_cons] at h2
    simp only [dedupeGo, hany, Bool.false_eq_true, if_false]
    rw [ih (out ++ [it]) ?_ h2.2]
    · simp
    · intro o ho x hx
      rcases List.mem_append.mp ho with ho' | ho'
      · exact h1 o ho' x (by simp [hx])
      · rcases List.mem_singleton.mp ho' with rfl
        exact h2.1 x hx

/-- Claim C4: the Deduplicator is idempotent — running `dedupe` on its own
output (at the same threshold) changes nothing. -/
theorem dedupe_idempotent (items : List Item) (t : Int) :
    dedupe (dedupe items t) t = dedupe items t := by
  have hp := dedupeGo_pairwise t items [] (by simp)
  have := dedupeGo_eq_append t (dedupeGo t [] items) [] (by simp) hp
  unfold dedupe
  rw [this]
  simp

lemma token_set_ratio_self (s : List Char) : token_set_ratio s s = 100 := by
  unfold token_set_ratio
  have hd : ((tokensOf s).filter fun t => !(tokensOf s).contains t) = [] := by
    rw [List.filter_eq_nil_iff]
    intro a ha
    simp [ha]
  simp [hd]

lemma nodup_of_pairwise_ratio (t : Int) (h : t ≤ 100) (l : List Item)
    (hp : l.Pairwise fun a b =>
      ¬ token_set_ratio (norm b.title) (norm a.title) ≥ (t : ℚ)) : l.Nodup := by
  refine hp.imp ?_
  intro a b hab
  rintro rfl
  apply hab
  rw [token_set_ratio_self]
  exact_mod_cast h

/-- Claim C6: with a dedupe threshold of at most 100, after the
dedupe-and-cap pass no item occurs twice in the same (region, category)
bucket; and an entry matching several selected categories contributes its
item exactly once to each matching bucket (shown for a run of one feed with
one entry, positive per-feed and per-section limits, a non-empty feed URL,
and an entry passing the exclusion and language gates). -/
theorem buckets_nodup_and_multilabel (cfg : Config)
    (h : cfg.dedupe_threshold ≤ 100) :
    (∀ runs r c, ((finalBuckets cfg runs) r c).Nodup) ∧
    (∀ (region : Region) (feed : Feed) (e : Entry) (c : List Char),
      pyStripBoth feed.url ≠ [] →
      1 ≤ cfg.items_per_feed →
      1 ≤ cfg.max_items_per_section →
      (!cfg.exclude_any.isEmpty &&
        any_kw_in (pyStripBoth e.title ++ ' ' :: pyStripBoth e.summary ++
          ' ' :: pyStripBoth e.link) cfg.exclude_any) = false →
      (decide (region = Region.romania) && !(pyStripBoth e.title).isEmpty &&
        !is_romanian (pyStripBoth e.title)) = false →
      c ∈ matchedSel cfg e →
      ((finalBuckets cfg [(region, feed, [e])]) region c).count
        ⟨pyStripBoth e.title, pyStripBoth e.link, pyStripBoth feed.name⟩ = 1) := by
  constructor
  · intro runs r c
    have hp := dedupeGo_pairwise cfg.dedupe_threshold
      ((collectAll cfg runs) r c) [] (by simp)
    exact (nodup_of_pairwise_ratio _ h _ hp).sublist
      (List.take_sublist _ _)
  · intro region feed e c hurl hpf hcap hx hgate hc
    have hm : (matchedSel cfg e).isEmpty = false :=
      List.isEmpty_eq_false.mpr (List.ne_nil_of_mem hc)
    have hb : collectAll cfg [(region, feed, [e])] region c =
        [⟨pyStripBoth e.title, pyStripBoth e.link, pyStripBoth feed.name⟩] := by
      simp only [collectAll, List.foldl_cons, List.foldl_nil, processFeed,
        List.isEmpty_eq_false.mpr hurl, Bool.false_eq_true, if_false]
      rcases Nat.exists_eq_add_of_le hpf with ⟨m, hmeq⟩
      rw [Nat.add_comm] at hmeq
      rw [hmeq]
      simp only [List.take_succ_cons, List.take_nil, List.foldl_cons,
        List.foldl_nil]
      simp only [processEntry, hx, Bool.false_eq_true, if_false, hgate, hm]
      simp [hc, emptyBuckets]
    rcases Nat.exists_eq_add_of_le hcap with ⟨m, hmeq⟩
    rw [Nat.add_comm] at hmeq
    simp [finalBuckets, dedupeCap, hb, dedupe, dedupeGo, hmeq]

theorem buckets_nodup_and_multilabel_witness :
    ((92 : Int) ≤ 100) ∧
    ((finalBuckets ⟨15, 10, 92, [], [(lc "politics", [lc "vote"]),
          (lc "economy", [lc "markets"])]⟩
        [(Region.world, ⟨lc "news", lc "http-u"⟩,
          [⟨lc "Vote on markets", lc "", lc "http-z"⟩])]) Region.world
        (lc "politics")).Nodup ∧
    ((finalBuckets ⟨15, 10, 92, [], [(lc "politics", [lc "vote"]),
          (lc "economy", [lc "markets"])]⟩
        [(Region.world, ⟨lc "news", lc "http-u"⟩,
          [⟨lc "Vote on markets", lc "", lc "http-z"⟩])]) Region.world
        (lc "politics")).count
      ⟨pyStripBoth (lc "Vote on markets"), pyStripBoth (lc "http-z"),
        pyStripBoth (lc "news")⟩ = 1 ∧
    ((finalBuckets ⟨15, 10, 92, [], [(lc "politics", [lc "vote"]),
          (lc "economy", [lc "markets"])]⟩
        [(Region.world, ⟨lc "news", lc "http-u"⟩,
          [⟨lc "Vote on markets", lc "", lc "http-z"⟩])]) Region.world
        (lc "economy")).count
      ⟨pyStripBoth (lc "Vote on markets"), pyStripBoth (lc "http-z"),
        pyStripBoth (lc "news")⟩ = 1 :=
  ⟨by decide,
   (buckets_nodup_and_multilabel ⟨15, 10, 92, [], [(lc "politics", [lc "vote"]),
        (lc "economy", [lc "markets"])]⟩ (by decide)).1
     [(Region.world, ⟨lc "news", lc "http-u"⟩,
        [⟨lc "Vote on markets", lc "", lc "http-z"⟩])] Region.world
     (lc "politics"),
   (buckets_nodup_and_multilabel ⟨15, 10, 92, [], [(lc "politics", [lc "vote"]),
        (lc "economy", [lc "markets"])]⟩ (by decide)).2 Region.world
     ⟨lc "news", lc "http-u"⟩ ⟨lc "Vote on markets", lc "", lc "http-z"⟩
     (lc "politics")
     (by decide) (by decide) (by decide) (by decide) (by decide) (by decide),
   (buckets_nodup_and_multilabel ⟨15, 10, 92, [], [(lc "politics", [lc "vote"]),
        (lc "economy", [lc "markets"])]⟩ (by decide)).2 Region.world
     ⟨lc "news", lc "http-u"⟩ ⟨lc "Vote on markets", lc "", lc "http-z"⟩
     (lc "economy")
     (by decide) (by decide) (by decide) (by decide) (by decide) (by decide)⟩

/-- Counterexample to claim C6 as stated: with `max_items_per_section = 0`
(threshold 100 ≤ 100), an entry matching the two selected categories
`politics` and `economy` appears zero times — not once — in each matching
bucket after the dedupe-and-cap pass. -/
theorem buckets_multilabel_counterexample :
    ((100 : Int) ≤ 100) ∧
    lc "politics" ∈ matchedSel ⟨15, 0, 100, [], [(lc "politics", [lc "vote"]),
        (lc "economy", [lc "markets"])]⟩
      ⟨lc "Vote on markets", lc "", lc "http-z"⟩ ∧
    lc "economy" ∈ matchedSel ⟨15, 0, 100, [], [(lc "politics", [lc "vote"]),
        (lc "economy", [lc "markets"])]⟩
      ⟨lc "Vote on markets", lc "", lc "http-z"⟩ ∧
    ((finalBuckets ⟨15, 0, 100, [], [(lc "politics", [lc "vote"]),
          (lc "economy", [lc "markets"])]⟩
        [(Region.world, ⟨lc "news", lc "http-u"⟩,
          [⟨lc "Vote on markets", lc "", lc "http-z"⟩])]) Region.world
        (lc "politics")).count
      ⟨pyStripBoth (lc "Vote on markets"), pyStripBoth (lc "http-z"),
        pyStripBoth (lc "news")⟩ = 0 ∧
    ((finalBuckets ⟨15, 0, 100, [], [(lc "politics", [lc "vote"]),
          (lc "economy", [lc "markets"])]⟩
        [(Region.world, ⟨lc "news", lc "http-u"⟩,
          [⟨lc "Vote on markets", lc "", lc "http-z"⟩])]) Region.world
        (lc "economy")).count
      ⟨pyStripBoth (lc "Vote on markets"), pyStripBoth (lc "http-z"),
        pyStripBoth (lc "news")⟩ = 0 := by
  refine ⟨by decide, by decide, by decide, by decide, by decide⟩

/-! ### Split length bound (claim C1) -/

lemma pyStripRight_length_le (xs : List Char) :
    (pyStripRight xs).length ≤ xs.length := by
  induction xs with
  | nil => simp [pyStripRight]
  | cons c rest ih =>
    simp only [pyStripRight]
    split
    · simp
    · simpa using ih

lemma pyStripRight_cons (c : Char) (rest : List Char) :
    pyStripRight (c :: rest) =
      if pyStripRight rest = [] ∧ pyIsSpace c then [] else c :: pyStripRight rest :=
  rfl

lemma pyStripRight_append_single (xs : List Char) (c : Char) :
    pyStripRight (xs ++ [c]) =
      if pyIsSpace c then pyStripRight xs else xs ++ [c] := by
  induction xs with
  | nil =>
    rw [List.nil_append, pyStripRight_cons]
    by_cases hc : pyIsSpace c = true
    · simp [hc, pyStripRight]
    · simp [hc, pyStripRight]
  | cons d rest ih =>
    rw [List.cons_append, pyStripRight_cons, ih]
    by_cases hc : pyIsSpace c = true
    · simp only [hc, if_true]
      rw [← pyStripRight_cons]
    · simp [hc]

lemma pyStripRight_of_no_space (xs : List Char)
    (h : ∀ c ∈ xs, pyIsSpace c = false) : pyStripRight xs = xs := by
  induction xs with
  | nil => rfl
  | cons c rest ih =>
    simp only [pyStripRight]
    rw [ih fun d hd => h d (List.mem_cons_of_mem _ hd)]
    simp [h c (List.mem_cons_self _ _)]

lemma splitGo_length_le (lines : List (List Char)) : ∀ parts cur,
    (∀ p ∈ parts, p.length ≤ TELEGRAM_MAX) →
    cur.length ≤ TELEGRAM_MAX + 1 →
    (cur = [] ∨ ∃ xs, cur = xs ++ ['\n']) →
    (∀ l ∈ lines, l.length ≤ TELEGRAM_MAX) →
    ∀ p ∈ splitGo parts cur lines, p.length ≤ TELEGRAM_MAX := by
  have flushed : ∀ cur : List Char, cur.length ≤ TELEGRAM_MAX + 1 →
      (cur = [] ∨ ∃ xs, cur = xs ++ ['\n']) →
      (pyStripRight cur).length ≤ TELEGRAM_MAX := by
    rintro cur hlen (rfl | ⟨xs, rfl⟩)
    · simp [pyStripRight]
    · rw [pyStripRight_append_single,
        if_pos (show pyIsSpace '\n' = true by decide)]
      calc (pyStripRight xs).length ≤ xs.length := pyStripRight_length_le xs
        _ ≤ TELEGRAM_MAX := by
          have := hlen
          simp only [List.length_append, List.length_singleton] at this
          omega
  induction lines with
  | nil =>
    intro parts cur hparts hlen hshape _
    simp only [splitGo]
    split
    · exact hparts
    · intro p hp
      rcases List.mem_append.mp hp with h' | h'
      · exact hparts p h'
      · rcases List.mem_singleton.mp h' with rfl
        exact flushed cur hlen hshape
  | cons line rest ih =>
    intro parts cur hparts hlen hshape hlines
    have hline : line.length ≤ TELEGRAM_MAX := hlines line (by simp)
    have hrest : ∀ l ∈ rest, l.length ≤ TELEGRAM_MAX :=
      fun l hl => hlines l (List.mem_cons_of_mem _ hl)
    simp only [splitGo]
    split
    · refine ih _ _ ?_ ?_ ?_ hrest
      · intro p hp
        split at hp
        · exact hparts p hp
        · rcases List.mem_append.mp hp with h' | h'
          · exact hparts p h'
          · rcases List.mem_singleton.mp h' with rfl
            exact flushed cur hlen hshape
      · simp only [List.length_append, List.length_singleton]
        omega
      · exact Or.inr ⟨line, rfl⟩
    · rename_i hfit
      rw [Nat.not_lt] at hfit
      refine ih _ _ hparts ?_ ?_ hrest
      · simp only [List.append_assoc, List.length_append, List.length_singleton]
        omega
      · exact Or.inr ⟨cur ++ line, by simp⟩

/-- Claim C1 (amended): provided no line of the blob is longer than
`TELEGRAM_MAX`, every part returned by `split` has length at most
`TELEGRAM_MAX`. -/
theorem split_parts_length_le (text : List Char)
    (h : ∀ l ∈ splitNl text, l.length ≤ TELEGRAM_MAX) :
    ∀ p ∈ split text, p.length ≤ TELEGRAM_MAX :=
  splitGo_length_le (splitNl text) [] [] (by simp) (by simp) (Or.inl rfl) h

theorem split_parts_length_le_witness :
    (∀ l ∈ splitNl (lc "ab\ncd"), l.length ≤ TELEGRAM_MAX) ∧
    ∀ p ∈ split (lc "ab\ncd"), p.length ≤ TELEGRAM_MAX :=
  ⟨by decide, split_parts_length_le (lc "ab\ncd") (by decide)⟩

lemma splitNl_of_no_nl (xs : List Char) (h : '\n' ∉ xs) : splitNl xs = [xs] := by
  induction xs with
  | nil => rfl
  | cons c rest ih =>
    have hc : ¬c = '\n' := fun hcc => h (hcc ▸ List.mem_cons_self _ _)
    rw [splitNl, if_neg hc, ih fun hr => h (List.mem_cons_of_mem _ hr)]
    rfl

lemma splitGo_nil (parts : List (List Char)) (cur : List Char) :
    splitGo parts cur [] =
      if (pyStripBoth cur).isEmpty then parts else parts ++ [pyStripRight cur] :=
  rfl

lemma splitGo_cons (parts : List (List Char)) (cur line : List Char)
    (rest : List (List Char)) :
    splitGo parts cur (line :: rest) =
      if cur.length + line.length + 1 > TELEGRAM_MAX then
        splitGo
          (if (pyStripBoth cur).isEmpty then parts else parts ++ [pyStripRight cur])
          (line ++ ['\n']) rest
      else splitGo parts (cur ++ line ++ ['\n']) rest :=
  rfl

lemma split_single_long_line :
    split (List.replicate 3801 'a') = [List.replicate 3801 'a'] := by
  have hlen : (List.replicate 3801 'a').length = 3801 := List.length_replicate _ _
  have hnonl : '\n' ∉ List.replicate 3801 'a' := by
    rw [List.mem_replicate]
    decide
  have hnosp : ∀ c ∈ List.replicate 3801 'a', pyIsSpace c = false := by
    intro c hc
    rcases (List.mem_replicate.mp hc).2 with rfl
    rfl
  have hcons : List.replicate 3801 'a' ++ ['\n'] =
      'a' :: (List.replicate 3800 'a' ++ ['\n']) := by
    rw [show (3801 : Nat) = 3800 + 1 from rfl, List.replicate_succ,
      List.cons_append]
  have hstrip : pyStripRight (List.replicate 3801 'a' ++ ['\n']) =
      List.replicate 3801 'a' := by
    rw [pyStripRight_append_single, if_pos (show pyIsSpace '\n' = true from rfl),
      pyStripRight_of_no_space _ hnosp]
  have hboth : pyStripBoth (List.replicate 3801 'a' ++ ['\n']) =
      List.replicate 3801 'a' := by
    unfold pyStripBoth
    rw [hcons, List.dropWhile_cons,
      if_neg (show ¬pyIsSpace 'a' = true by decide), ← hcons, hstrip]
  have hne : (List.replicate 3801 'a').isEmpty = false := by
    rw [List.isEmpty_eq_false]
    exact List.length_pos.mp (by rw [hlen]; decide)
  rw [split, splitNl_of_no_nl _ hnonl, splitGo_cons,
    if_pos (show List.length [] + (List.replicate 3801 'a').length + 1 >
      TELEGRAM_MAX by rw [hlen]; decide),
    show (pyStripBoth []).isEmpty = true from rfl, if_pos rfl, splitGo_nil,
    hboth, hne]
  rw [hstrip, List.nil_append]
  exact if_neg (by decide)

/-- Counterexample to claim C1 as stated: a blob consisting of one line of
3801 identical characters is returned unsplit as a single part of length
3801 > `TELEGRAM_MAX` — a single line longer than the maximum is NOT cut
down to the maximum. -/
theorem split_long_line_counterexample :
    ¬ ∀ p ∈ split (List.replicate 3801 'a'), p.length ≤ TELEGRAM_MAX := by
  intro h
  have hmem : List.replicate 3801 'a' ∈ split (List.replicate 3801 'a') := by
    rw [split_single_long_line]
    exact List.mem_singleton_self _
  have := h _ hmem
  rw [List.length_replicate] at this
  exact absurd this (by decide)

/-! ### Split reconstruction (claim C2) -/

/-- A line that ends in a non-whitespace character (in particular it is
neither empty nor whitespace-only).  Whitespace is the full Python set, so a
line ending in, say, a no-break space (whose trailing characters `rstrip`
would delete) does not qualify. -/
def endsNonWs (l : List Char) : Bool :=
  match l.getLast? with
  | none => false
  | some c => !pyIsSpace c

example : endsNonWs (lc "cd") = true := by decide
example : endsNonWs ['a', Char.ofNat 160] = false := by decide

lemma endsNonWs_iff (l : List Char) :
    endsNonWs l = true ↔ ∃ ys y, l = ys ++ [y] ∧ pyIsSpace y = false := by
  unfold endsNonWs
  cases h : l.getLast? with
  | none =>
    rw [List.getLast?_eq_none_iff] at h
    subst h
    constructor
    · intro hc; cases hc
    · rintro ⟨ys, y, hy, -⟩
      exact absurd hy.symm (by simp)
  | some c =>
    rw [List.getLast?_eq_some_iff] at h
    obtain ⟨ys, rfl⟩ := h
    simp only [Bool.not_eq_true']
    constructor
    · intro hw; exact ⟨ys, c, rfl, hw⟩
    · rintro ⟨ys', y', hy, hw⟩
      have : c = y' := by
        have h1 : (ys ++ [c]).getLast? = some c := List.getLast?_concat _
        rw [hy, List.getLast?_concat] at h1
        exact (Option.some.injEq .. ▸ h1).symm
      rw [this]; exact hw

lemma pyStripRight_append (xs ys : List Char) :
    pyStripRight (xs ++ ys) =
      if pyStripRight ys = [] then pyStripRight xs else xs ++ pyStripRight ys := by
  induction xs with
  | nil =>
    by_cases h : pyStripRight ys = []
    · simp [h, pyStripRight]
    · simp [h]
  | cons d rest ih =>
    rw [List.cons_append, pyStripRight_cons, ih]
    by_cases h : pyStripRight ys = []
    · simp only [h, if_true]
      rw [← pyStripRight_cons]
    · simp only [h, if_false]
      rw [if_neg fun hc => h (List.append_eq_nil.mp hc.1).2, List.cons_append]

lemma stripBoth_ne_of_mem (xs : List Char) (c : Char) (hc : c ∈ xs)
    (hw : pyIsSpace c = false) : pyStripBoth xs ≠ [] := by
  induction xs with
  | nil => cases hc
  | cons d rest ih =>
    unfold pyStripBoth at *
    rw [List.dropWhile_cons]
    by_cases hd : pyIsSpace d = true
    · rw [if_pos hd]
      rcases List.mem_cons.mp hc with rfl | h'
      · rw [hd] at hw; cases hw
      · exact ih h'
    · rw [if_neg hd, pyStripRight_cons,
        if_neg fun hcc => hd hcc.2]
      exact List.cons_ne_nil _ _

lemma splitNl_nil_eq : splitNl [] = [[]] := rfl

lemma splitNl_cons_eq (c : Char) (rest : List Char) :
    splitNl (c :: rest) =
      if c = '\n' then [] :: splitNl rest
      else (c :: (splitNl rest).headI) :: (splitNl rest).tail := rfl

lemma splitNl_ne_nil (t : List Char) : splitNl t ≠ [] := by
  cases t with
  | nil => rw [splitNl_nil_eq]; exact List.cons_ne_nil _ _
  | cons c rest =>
    rw [splitNl_cons_eq]
    split
    · exact List.cons_ne_nil _ _
    · exact List.cons_ne_nil _ _

lemma splitNl_no_nl_mem (t : List Char) : ∀ l ∈ splitNl t, '\n' ∉ l := by
  induction t with
  | nil =>
    intro l hl
    rw [splitNl_nil_eq] at hl
    rcases List.mem_singleton.mp hl with rfl
    simp
  | cons c rest ih =>
    intro l hl
    rw [splitNl_cons_eq] at hl
    by_cases hc : c = '\n'
    · rw [if_pos hc] at hl
      rcases List.mem_cons.mp hl with rfl | h'
      · simp
      · exact ih l h'
    · rw [if_neg hc] at hl
      rcases hsnl : splitNl rest with - | ⟨a, as⟩
      · exact absurd hsnl (splitNl_ne_nil rest)
      · rw [hsnl] at hl
        simp only [List.headI, List.tail_cons] at hl
        rcases List.mem_cons.mp hl with rfl | h'
        · intro hmem
          rcases List.mem_cons.mp hmem with h1 | h1
          · exact hc h1.symm
          · exact ih a (hsnl ▸ List.mem_cons_self _ _) h1
        · exact ih l (hsnl ▸ List.mem_cons_of_mem _ h')

lemma splitNl_append_cons (l ys : List Char) (h : '\n' ∉ l) :
    splitNl (l ++ '\n' :: ys) = l :: splitNl ys := by
  induction l with
  | nil => rw [List.nil_append, splitNl_cons_eq, if_pos rfl]
  | cons d l' ih =>
    have hd : ¬d = '\n' := fun h' => h (h' ▸ List.mem_cons_self _ _)
    rw [List.cons_append, splitNl_cons_eq, if_neg hd,
      ih fun hm => h (List.mem_cons_of_mem _ hm)]
    rfl

lemma splitNl_joinNl (acc : List (List Char)) : acc ≠ [] →
    (∀ l ∈ acc, '\n' ∉ l) → splitNl (joinNl acc) = acc := by
  induction acc with
  | nil => intro h; exact absurd rfl h
  | cons a as ih =>
    intro _ hnl
    cases as with
    | nil =>
      rw [show joinNl [a] = a from rfl, splitNl_of_no_nl a (hnl a (by simp))]
    | cons b bs =>
      rw [show joinNl (a :: b :: bs) = a ++ '\n' :: joinNl (b :: bs) from rfl,
        splitNl_append_cons _ _ (hnl a (by simp)),
        ih (by simp) fun l hl => hnl l (List.mem_cons_of_mem _ hl)]

/-- The current accumulator `cur` of `split`, as a function of the lines it
holds: each accumulated line followed by the reinserted newline. -/
def encAcc : List (List Char) → List Char
  | [] => []
  | l :: rest => l ++ '\n' :: encAcc rest

lemma encAcc_append_single (acc : List (List Char)) (line : List Char) :
    encAcc (acc ++ [line]) = (encAcc acc ++ line) ++ ['\n'] := by
  induction acc with
  | nil => rfl
  | cons a as ih =>
    show a ++ '\n' :: encAcc (as ++ [line]) =
      ((a ++ '\n' :: encAcc as) ++ line) ++ ['\n']
    rw [ih]
    simp [List.append_assoc]

lemma joinNl_ne_nil (acc : List (List Char)) (hg : ∀ l ∈ acc, endsNonWs l = true) :
    acc ≠ [] → joinNl acc ≠ [] := by
  cases acc with
  | nil => intro h; exact absurd rfl h
  | cons a as =>
    intro _
    obtain ⟨ys, y, hay, -⟩ := (endsNonWs_iff a).mp (hg a (by simp))
    cases as with
    | nil =>
      rw [show joinNl [a] = a from rfl, hay]
      simp
    | cons b bs =>
      rw [show joinNl (a :: b :: bs) = a ++ '\n' :: joinNl (b :: bs) from rfl]
      intro hcc
      exact List.cons_ne_nil _ _ (List.append_eq_nil.mp hcc).2

lemma flush_eq (acc : List (List Char)) : acc ≠ [] →
    (∀ l ∈ acc, endsNonWs l = true) →
    pyStripRight (encAcc acc) = joinNl acc := by
  induction acc with
  | nil => intro h; exact absurd rfl h
  | cons a as ih =>
    intro _ hgood
    obtain ⟨ys, y, hay, hwy⟩ := (endsNonWs_iff a).mp (hgood a (by simp))
    cases as with
    | nil =>
      show pyStripRight (a ++ '\n' :: encAcc []) = joinNl [a]
      rw [show ('\n' :: encAcc [] : List Char) = ['\n'] from rfl,
        pyStripRight_append_single,
        if_pos (show pyIsSpace '\n' = true from rfl), hay,
        pyStripRight_append_single,
        if_neg (show ¬pyIsSpace y = true by rw [hwy]; exact Bool.false_ne_true)]
      rfl
    | cons b bs =>
      show pyStripRight (a ++ '\n' :: encAcc (b :: bs)) = joinNl (a :: b :: bs)
      rw [pyStripRight_append, pyStripRight_cons,
        ih (by simp) (fun l hl => hgood l (List.mem_cons_of_mem _ hl))]
      have hjne : joinNl (b :: bs) ≠ [] :=
        joinNl_ne_nil _ (fun l hl => hgood l (List.mem_cons_of_mem _ hl))
          (by simp)
      rw [if_neg (show ¬(joinNl (b :: bs) = [] ∧ pyIsSpace '\n' = true) from
          fun hcc => hjne hcc.1),
        if_neg (List.cons_ne_nil '\n' (joinNl (b :: bs)))]
      rfl

lemma splitGo_rejoin (lines : List (List Char)) :
    ∀ (acc : List (List Char)) (parts : List (List Char)),
    (∀ l ∈ acc, endsNonWs l = true ∧ '\n' ∉ l) →
    (∀ l ∈ lines, endsNonWs l = true ∧ '\n' ∉ l) →
    (splitGo parts (encAcc acc) lines).flatMap splitNl =
      parts.flatMap splitNl ++ acc ++ lines := by
  have flushAppend : ∀ (acc : List (List Char)) (parts : List (List Char)),
      (∀ l ∈ acc, endsNonWs l = true ∧ '\n' ∉ l) →
      ((if (pyStripBoth (encAcc acc)).isEmpty then parts
        else parts ++ [pyStripRight (encAcc acc)]).flatMap splitNl) =
        parts.flatMap splitNl ++ acc := by
    intro acc parts hacc
    cases acc with
    | nil =>
      rw [show (pyStripBoth (encAcc [])).isEmpty = true from rfl, if_pos rfl]
      simp
    | cons a as =>
      obtain ⟨ys, y, hay, hwy⟩ := (endsNonWs_iff a).mp (hacc a (by simp)).1
      have hyin : y ∈ encAcc (a :: as) := by
        show y ∈ a ++ '\n' :: encAcc as
        apply List.mem_append_left
        rw [hay]
        exact List.mem_append_right _ (by simp)
      have hne := stripBoth_ne_of_mem _ y hyin hwy
      rw [if_neg fun hcc => hne (List.isEmpty_eq_true.mp hcc),
        flush_eq _ (by simp) fun l hl => (hacc l hl).1,
        List.flatMap_append]
      simp only [List.flatMap_cons, List.flatMap_nil, List.append_nil]
      rw [splitNl_joinNl _ (by simp) fun l hl => (hacc l hl).2]
  induction lines with
  | nil =>
    intro acc parts hacc _
    rw [splitGo_nil, flushAppend acc parts hacc]
    simp
  | cons line rest ih =>
    intro acc parts hacc hlines
    have hline := hlines line (by simp)
    have hrest : ∀ l ∈ rest, endsNonWs l = true ∧ '\n' ∉ l :=
      fun l hl => hlines l (List.mem_cons_of_mem _ hl)
    rw [splitGo_cons]
    split
    · have hsingle : ∀ l ∈ [line], endsNonWs l = true ∧ '\n' ∉ l := by
        intro l hl
        rcases List.mem_singleton.mp hl with rfl
        exact hline
      have step := ih [line]
        (if (pyStripBoth (encAcc acc)).isEmpty then parts
          else parts ++ [pyStripRight (encAcc acc)]) hsingle hrest
      calc (splitGo
            (if (pyStripBoth (encAcc acc)).isEmpty then parts
              else parts ++ [pyStripRight (encAcc acc)])
            (line ++ ['\n']) rest).flatMap splitNl
          = (splitGo
            (if (pyStripBoth (encAcc acc)).isEmpty then parts
              else parts ++ [pyStripRight (encAcc acc)])
            (encAcc [line]) rest).flatMap splitNl := rfl
        _ = (if (pyStripBoth (encAcc acc)).isEmpty then parts
              else parts ++ [pyStripRight (encAcc acc)]).flatMap splitNl ++
            [line] ++ rest := step
        _ = (parts.flatMap splitNl ++ acc) ++ [line] ++ rest := by
            rw [flushAppend acc parts hacc]
        _ = parts.flatMap splitNl ++ acc ++ (line :: rest) := by
            simp [List.append_assoc]
    · have happ : ∀ l ∈ acc ++ [line], endsNonWs l = true ∧ '\n' ∉ l := by
        intro l hl
        rcases List.mem_append.mp hl with h' | h'
        · exact hacc l h'
        · rcases List.mem_singleton.mp h' with rfl
          exact hline
      have step := ih (acc ++ [line]) parts happ hrest
      calc (splitGo parts (encAcc acc ++ line ++ ['\n']) rest).flatMap splitNl
          = (splitGo parts (encAcc (acc ++ [line])) rest).flatMap splitNl := by
            rw [encAcc_append_single]
        _ = parts.flatMap splitNl ++ (acc ++ [line]) ++ rest := step
        _ = parts.flatMap splitNl ++ acc ++ (line :: rest) := by
            simp [List.append_assoc]

/-- Claim C2 (amended): provided every line of the blob ends in a
non-whitespace character (in particular no line is empty or
whitespace-only), splitting the lines of the parts returned by `split` back
out reproduces every line of the original blob, in order, exactly once. -/
theorem split_rejoin_lines (text : List Char)
    (h : ∀ l ∈ splitNl text, endsNonWs l = true) :
    (split text).flatMap splitNl = splitNl text := by
  have hnl := splitNl_no_nl_mem text
  have main := splitGo_rejoin (splitNl text) [] [] (by simp)
    fun l hl => ⟨h l hl, hnl l hl⟩
  rw [split]
  calc (splitGo [] [] (splitNl text)).flatMap splitNl
      = (splitGo [] (encAcc []) (splitNl text)).flatMap splitNl := rfl
    _ = ([] : List (List Char)).flatMap splitNl ++ [] ++ splitNl text := main
    _ = splitNl text := by simp

theorem split_rejoin_lines_witness :
    (∀ l ∈ splitNl (lc "ab\ncd"), endsNonWs l = true) ∧
    (split (lc "ab\ncd")).flatMap splitNl = splitNl (lc "ab\ncd") :=
  ⟨by decide, split_rejoin_lines (lc "ab\ncd") (by decide)⟩

/-- Counterexample to claim C2 as stated: for the blob consisting of a single
space, `split` returns no parts at all (the whitespace-only accumulator is
dropped), so the original whitespace-only line is not reproduced. -/
theorem split_rejoin_counterexample :
    ¬ (split (lc " ")).flatMap splitNl = splitNl (lc " ") := by decide

/-! ### Normalization idempotence (claim C7) -/

lemma toNat_ofNat_valid {n : Nat} (h : n < 55296) : (Char.ofNat n).toNat = n := by
  rw [Char.ofNat, dif_pos (Or.inl h)]
  simp [Char.ofNatAux, Char.toNat, UInt32.toNat]

lemma pyLower_fixed_of_image (r : Char)
    (hr : (97 ≤ r.toNat ∧ r.toNat ≤ 122) ∨ (224 ≤ r.toNat ∧ r.toNat ≤ 254) ∨
      r.toNat = 255 ∨ r.toNat = 339 ∨ r.toNat = 402 ∨ r.toNat = 107) :
    pyLower r = r := by
  unfold pyLower
  rw [if_neg (by omega), if_neg (by omega), if_neg (by omega),
    if_neg (by omega), if_neg (by omega), if_neg (by omega)]

lemma pyLower_idem (c : Char) : pyLower (pyLower c) = pyLower c := by
  by_cases h1 : 65 ≤ c.toNat ∧ c.toNat ≤ 90
  · have e : pyLower c = Char.ofNat (c.toNat + 32) := by
      unfold pyLower; rw [if_pos h1]
    rw [e]
    exact pyLower_fixed_of_image _
      (Or.inl (by rw [toNat_ofNat_valid (by omega)]; omega))
  by_cases h2 : 192 ≤ c.toNat ∧ c.toNat ≤ 222 ∧ c.toNat ≠ 215
  · have e : pyLower c = Char.ofNat (c.toNat + 32) := by
      unfold pyLower; rw [if_neg h1, if_pos h2]
    rw [e]
    exact pyLower_fixed_of_image _
      (Or.inr (Or.inl (by rw [toNat_ofNat_valid (by omega)]; omega)))
  by_cases h3 : c.toNat = 376
  · have e : pyLower c = Char.ofNat 255 := by
      unfold pyLower; rw [if_neg h1, if_neg h2, if_pos h3]
    rw [e]
    exact pyLower_fixed_of_image _
      (Or.inr (Or.inr (Or.inl (toNat_ofNat_valid (by omega)))))
  by_cases h4 : c.toNat = 338
  · have e : pyLower c = Char.ofNat 339 := by
      unfold pyLower; rw [if_neg h1, if_neg h2, if_neg h3, if_pos h4]
    rw [e]
    exact pyLower_fixed_of_image _
      (Or.inr (Or.inr (Or.inr (Or.inl (toNat_ofNat_valid (by omega))))))
  by_cases h5 : c.toNat = 401
  · have e : pyLower c = Char.ofNat 402 := by
      unfold pyLower; rw [if_neg h1, if_neg h2, if_neg h3, if_neg h4, if_pos h5]
    rw [e]
    exact pyLower_fixed_of_image _
      (Or.inr (Or.inr (Or.inr (Or.inr (Or.inl (toNat_ofNat_valid (by omega)))))))
  by_cases h6 : c.toNat = 8490
  · have e : pyLower c = Char.ofNat 107 := by
      unfold pyLower
      rw [if_neg h1, if_neg h2, if_neg h3, if_neg h4, if_neg h5, if_pos h6]
    rw [e]
    exact pyLower_fixed_of_image _
      (Or.inr (Or.inr (Or.inr (Or.inr (Or.inr (toNat_ofNat_valid (by omega)))))))
  · have e : pyLower c = c := by
      unfold pyLower
      rw [if_neg h1, if_neg h2, if_neg h3, if_neg h4, if_neg h5, if_neg h6]
    rw [e, e]

lemma pyLower_space : pyLower ' ' = ' ' := by decide

lemma pyLower_lt : pyLower '<' = '<' := by decide

lemma pyLower_gt : pyLower '>' = '>' := by decide

lemma stripTagsGo_chars (P : Char → Prop) (hsp : P ' ') (hlt : P '<')
    (hgt : P '>') :
    ∀ (xs : List Char) (st : Option (List Char)),
    (∀ c ∈ xs, P c) →
    (∀ acc, st = some acc → ∀ c ∈ acc, P c) →
    ∀ c ∈ stripTagsGo st xs, P c := by
  intro xs
  induction xs with
  | nil =>
    intro st hxs hst c hc
    cases st with
    | none => cases hc
    | some acc =>
      rcases List.mem_cons.mp hc with rfl | h'
      · exact hlt
      · exact hst acc rfl c (List.mem_reverse.mp h')
  | cons d rest ih =>
    intro st hxs hst c hc
    have hd : P d := hxs d (by simp)
    have hrest : ∀ c ∈ rest, P c := fun c h => hxs c (List.mem_cons_of_mem _ h)
    cases st with
    | none =>
      rw [show stripTagsGo none (d :: rest) =
          (if d = '<' then stripTagsGo (some []) rest
            else d :: stripTagsGo none rest) from rfl] at hc
      split at hc
      · exact ih _ hrest (by rintro acc ⟨rfl⟩ c hc'; cases hc') c hc
      · rcases List.mem_cons.mp hc with rfl | h'
        · exact hd
        · exact ih _ hrest (by rintro acc ⟨⟩) c h'
    | some acc =>
      have hacc : ∀ c ∈ acc, P c := hst acc rfl
      rw [show stripTagsGo (some acc) (d :: rest) =
          (if d = '>' then
            (if acc = [] then '<' :: '>' :: stripTagsGo none rest
              else ' ' :: stripTagsGo none rest)
          else stripTagsGo (some (d :: acc)) rest) from rfl] at hc
      split at hc
      · split at hc
        · rcases List.mem_cons.mp hc with rfl | h'
          · exact hlt
          rcases List.mem_cons.mp h' with rfl | h''
          · exact hgt
          · exact ih _ hrest (by rintro acc' ⟨⟩) c h''
        · rcases List.mem_cons.mp hc with rfl | h'
          · exact hsp
          · exact ih _ hrest (by rintro acc' ⟨⟩) c h'
      · refine ih _ hrest ?_ c hc
        rintro acc' ⟨rfl⟩ e he
        rcases List.mem_cons.mp he with rfl | h'
        · exact hd
        · exact hacc e h'

lemma stripBadGo_chars (P : Char → Prop) (hsp : P ' ') :
    ∀ (xs : List Char) (b : Bool), (∀ c ∈ xs, P c) →
    ∀ c ∈ stripBadGo b xs, P c := by
  intro xs
  induction xs with
  | nil => intro b _ c hc; cases hc
  | cons d rest ih =>
    intro b hxs c hc
    have hrest : ∀ c ∈ rest, P c := fun c h => hxs c (List.mem_cons_of_mem _ h)
    rw [show stripBadGo b (d :: rest) =
        (if allowedChar d then d :: stripBadGo false rest
          else if b then stripBadGo true rest
          else ' ' :: stripBadGo true rest) from rfl] at hc
    split at hc
    · rcases List.mem_cons.mp hc with rfl | h'
      · exact hxs c (by simp)
      · exact ih _ hrest c h'
    split at hc
    · exact ih _ hrest c hc
    · rcases List.mem_cons.mp hc with rfl | h'
      · exact hsp
      · exact ih _ hrest c h'

lemma stripBadGo_allowed :
    ∀ (xs : List Char) (b : Bool), ∀ c ∈ stripBadGo b xs, allowedChar c = true := by
  intro xs
  induction xs with
  | nil => intro b c hc; cases hc
  | cons d rest ih =>
    intro b c hc
    rw [show stripBadGo b (d :: rest) =
        (if allowedChar d then d :: stripBadGo false rest
          else if b then stripBadGo true rest
          else ' ' :: stripBadGo true rest) from rfl] at hc
    split at hc
    · rcases List.mem_cons.mp hc with rfl | h'
      · assumption
      · exact ih _ c h'
    split at hc
    · exact ih _ c hc
    · rcases List.mem_cons.mp hc with rfl | h'
      · decide
      · exact ih _ c h'

lemma collapseGo_subset :
    ∀ (xs : List Char) (b : Bool), ∀ c ∈ collapseGo b xs, c ∈ xs ∨ c = ' ' := by
  intro xs
  induction xs with
  | nil => intro b c hc; cases hc
  | cons d rest ih =>
    intro b c hc
    rw [show collapseGo b (d :: rest) =
        (if pyIsSpace d then
          (if b then collapseGo true rest else ' ' :: collapseGo true rest)
        else d :: collapseGo false rest) from rfl] at hc
    split at hc
    · split at hc
      · rcases ih _ c hc with h' | h'
        · exact Or.inl (List.mem_cons_of_mem _ h')
        · exact Or.inr h'
      · rcases List.mem_cons.mp hc with rfl | h'
        · exact Or.inr rfl
        · rcases ih _ c h' with h'' | h''
          · exact Or.inl (List.mem_cons_of_mem _ h'')
          · exact Or.inr h''
    · rcases List.mem_cons.mp hc with rfl | h'
      · exact Or.inl (by simp)
      · rcases ih _ c h' with h'' | h''
        · exact Or.inl (List.mem_cons_of_mem _ h'')
        · exact Or.inr h''

lemma mem_pyStripRight (c : Char) :
    ∀ xs : List Char, c ∈ pyStripRight xs → c ∈ xs := by
  intro xs
  induction xs with
  | nil => intro hc; cases hc
  | cons d rest ih =>
    intro hc
    rw [pyStripRight_cons] at hc
    split at hc
    · cases hc
    · rcases List.mem_cons.mp hc with rfl | h'
      · simp
      · exact List.mem_cons_of_mem _ (ih h')

lemma mem_pyStripBoth (c : Char) (xs : List Char) (hc : c ∈ pyStripBoth xs) :
    c ∈ xs := by
  unfold pyStripBoth at hc
  exact (List.dropWhile_sublist pyIsSpace).subset (mem_pyStripRight c _ hc)

lemma map_pyLower_id (y : List Char) (h : ∀ c ∈ y, pyLower c = c) :
    y.map pyLower = y := by
  induction y with
  | nil => rfl
  | cons c rest ih =>
    rw [List.map_cons, h c (by simp), ih fun d hd => h d (List.mem_cons_of_mem _ hd)]

lemma stripTagsGo_none_id (y : List Char) (h : '<' ∉ y) :
    stripTagsGo none y = y := by
  induction y with
  | nil => rfl
  | cons c rest ih =>
    have hc : ¬c = '<' := fun h' => h (h' ▸ List.mem_cons_self _ _)
    rw [show stripTagsGo none (c :: rest) =
        (if c = '<' then stripTagsGo (some []) rest
          else c :: stripTagsGo none rest) from rfl,
      if_neg hc, ih fun h' => h (List.mem_cons_of_mem _ h')]

lemma stripBadGo_id (y : List Char) (h : ∀ c ∈ y, allowedChar c = true) :
    ∀ b, stripBadGo b y = y := by
  induction y with
  | nil => intro b; rfl
  | cons c rest ih =>
    intro b
    rw [show stripBadGo b (c :: rest) =
        (if allowedChar c then c :: stripBadGo false rest
          else if b then stripBadGo true rest
          else ' ' :: stripBadGo true rest) from rfl,
      if_pos (h c (by simp)),
      ih (fun d hd => h d (List.mem_cons_of_mem _ hd)) false]

/-- The shape of collapsed whitespace: every whitespace character is a single
`' '` and is not followed by further whitespace; the flag records whether the
previous character was such a space (so a leading space is forbidden when the
flag is set). -/
def tidyFrom : Bool → List Char → Bool
  | _, [] => true
  | b, c :: rest =>
    if c = ' ' then !b && tidyFrom true rest
    else !pyIsSpace c && tidyFrom false rest

lemma tidyFrom_of_true (y : List Char) (h : tidyFrom true y = true) :
    ∀ b, tidyFrom b y = true := by
  intro b
  cases y with
  | nil => rfl
  | cons c rest =>
    rw [show tidyFrom true (c :: rest) =
        (if c = ' ' then !true && tidyFrom true rest
          else !pyIsSpace c && tidyFrom false rest) from rfl] at h
    rw [show tidyFrom b (c :: rest) =
        (if c = ' ' then !b && tidyFrom true rest
          else !pyIsSpace c && tidyFrom false rest) from rfl]
    split at h
    · rw [Bool.not_true, Bool.false_and] at h
      cases h
    · rw [if_neg (by assumption)]
      exact h

lemma collapseGo_tidy (xs : List Char) : ∀ b, tidyFrom b (collapseGo b xs) = true := by
  induction xs with
  | nil => intro b; rfl
  | cons c rest ih =>
    intro b
    rw [show collapseGo b (c :: rest) =
        (if pyIsSpace c then
          (if b then collapseGo true rest else ' ' :: collapseGo true rest)
        else c :: collapseGo false rest) from rfl]
    by_cases hc : pyIsSpace c = true
    · rw [if_pos hc]
      cases b with
      | true => rw [if_pos rfl]; exact ih true
      | false =>
        rw [if_neg (by simp)]
        rw [show tidyFrom false (' ' :: collapseGo true rest) =
            (if (' ' : Char) = ' ' then !false && tidyFrom true (collapseGo true rest)
              else !pyIsSpace ' ' && tidyFrom false (collapseGo true rest)) from rfl,
          if_pos rfl, ih true]
        rfl
    · rw [if_neg hc]
      have hcsp : ¬c = ' ' := fun h' => hc (by rw [h']; rfl)
      have hcw : pyIsSpace c = false := by
        cases hh : pyIsSpace c
        · rfl
        · exact absurd hh hc
      rw [show tidyFrom b (c :: collapseGo false rest) =
          (if c = ' ' then !b && tidyFrom true (collapseGo false rest)
            else !pyIsSpace c && tidyFrom false (collapseGo false rest)) from rfl,
        if_neg hcsp, ih false, hcw]
      rfl

lemma collapseGo_id (y : List Char) : ∀ b, tidyFrom b y = true → collapseGo b y = y := by
  induction y with
  | nil => intro b _; rfl
  | cons c rest ih =>
    intro b hb
    rw [show tidyFrom b (c :: rest) =
        (if c = ' ' then !b && tidyFrom true rest
          else !pyIsSpace c && tidyFrom false rest) from rfl] at hb
    rw [show collapseGo b (c :: rest) =
        (if pyIsSpace c then
          (if b then collapseGo true rest else ' ' :: collapseGo true rest)
        else c :: collapseGo false rest) from rfl]
    by_cases hc : c = ' '
    · rw [if_pos hc] at hb
      rw [Bool.and_eq_true, Bool.not_eq_true'] at hb
      subst hc
      rw [if_pos (show pyIsSpace ' ' = true from rfl), hb.1,
        if_neg (show ¬(false = true) by simp), ih true hb.2]
    · rw [if_neg hc] at hb
      rw [Bool.and_eq_true, Bool.not_eq_true'] at hb
      rw [if_neg (by rw [hb.1]; simp), ih false hb.2]

lemma dropWhile_tidy (y : List Char) (h : tidyFrom false y = true) :
    tidyFrom true (y.dropWhile pyIsSpace) = true := by
  cases y with
  | nil => rfl
  | cons c rest =>
    rw [show tidyFrom false (c :: rest) =
        (if c = ' ' then !false && tidyFrom true rest
          else !pyIsSpace c && tidyFrom false rest) from rfl] at h
    by_cases hc : c = ' '
    · rw [if_pos hc] at h
      rw [Bool.not_false, Bool.true_and] at h
      subst hc
      rw [List.dropWhile_cons, if_pos (show pyIsSpace ' ' = true from rfl)]
      cases rest with
      | nil => rfl
      | cons d rest' =>
        rw [show tidyFrom true (d :: rest') =
            (if d = ' ' then !true && tidyFrom true rest'
              else !pyIsSpace d && tidyFrom false rest') from rfl] at h
        by_cases hd : d = ' '
        · rw [if_pos hd, Bool.not_true, Bool.false_and] at h
          cases h
        · rw [if_neg hd, Bool.and_eq_true, Bool.not_eq_true'] at h
          rw [List.dropWhile_cons, if_neg (by rw [h.1]; simp)]
          rw [show tidyFrom true (d :: rest') =
              (if d = ' ' then !true && tidyFrom true rest'
                else !pyIsSpace d && tidyFrom false rest') from rfl,
            if_neg hd, h.1, h.2]
          rfl
    · rw [if_neg hc, Bool.and_eq_true, Bool.not_eq_true'] at h
      rw [List.dropWhile_cons, if_neg (by rw [h.1]; simp)]
      rw [show tidyFrom true (c :: rest) =
          (if c = ' ' then !true && tidyFrom true rest
            else !pyIsSpace c && tidyFrom false rest) from rfl,
        if_neg hc, h.1, h.2]
      rfl

lemma dropWhile_id_of_tidy (y : List Char) (h : tidyFrom true y = true) :
    y.dropWhile pyIsSpace = y := by
  cases y with
  | nil => rfl
  | cons c rest =>
    rw [show tidyFrom true (c :: rest) =
        (if c = ' ' then !true && tidyFrom true rest
          else !pyIsSpace c && tidyFrom false rest) from rfl] at h
    by_cases hc : c = ' '
    · rw [if_pos hc, Bool.not_true, Bool.false_and] at h
      cases h
    · rw [if_neg hc, Bool.and_eq_true, Bool.not_eq_true'] at h
      rw [List.dropWhile_cons, if_neg (by rw [h.1]; simp)]

lemma pyStripRight_tidy (y : List Char) : ∀ b, tidyFrom b y = true →
    tidyFrom b (pyStripRight y) = true := by
  induction y with
  | nil => intro b _; rfl
  | cons c rest ih =>
    intro b hb
    rw [show tidyFrom b (c :: rest) =
        (if c = ' ' then !b && tidyFrom true rest
          else !pyIsSpace c && tidyFrom false rest) from rfl] at hb
    rw [pyStripRight_cons]
    split
    · rfl
    · by_cases hc : c = ' '
      · rw [if_pos hc] at hb
        rw [Bool.and_eq_true, Bool.not_eq_true'] at hb
        rw [show tidyFrom b (c :: pyStripRight rest) =
            (if c = ' ' then !b && tidyFrom true (pyStripRight rest)
              else !pyIsSpace c && tidyFrom false (pyStripRight rest)) from rfl,
          if_pos hc, hb.1, ih true hb.2]
        rfl
      · rw [if_neg hc] at hb
        rw [Bool.and_eq_true, Bool.not_eq_true'] at hb
        rw [show tidyFrom b (c :: pyStripRight rest) =
            (if c = ' ' then !b && tidyFrom true (pyStripRight rest)
              else !pyIsSpace c && tidyFrom false (pyStripRight rest)) from rfl,
          if_neg hc, hb.1, ih false hb.2]
        rfl

lemma pyStripRight_ends (y : List Char) :
    pyStripRight y = [] ∨ endsNonWs (pyStripRight y) = true := by
  induction y with
  | nil => exact Or.inl rfl
  | cons c rest ih =>
    rw [pyStripRight_cons]
    split
    · exact Or.inl rfl
    · rename_i hcond
      right
      rcases ih with h' | h'
      · rw [h']
        have hcw : pyIsSpace c = false := by
          cases hh : pyIsSpace c
          · rfl
          · exact absurd ⟨h', hh⟩ hcond
        rw [show endsNonWs [c] = !pyIsSpace c from rfl, hcw]
        rfl
      · obtain ⟨ys, z, hz, hwz⟩ := (endsNonWs_iff _).mp h'
        rw [hz]
        exact (endsNonWs_iff _).mpr ⟨c :: ys, z, by rw [List.cons_append], hwz⟩

lemma pyStripRight_id_of_ends (y : List Char) (h : endsNonWs y = true) :
    pyStripRight y = y := by
  obtain ⟨ys, z, hz, hwz⟩ := (endsNonWs_iff _).mp h
  rw [hz, pyStripRight_append_single, if_neg (by rw [hwz]; exact Bool.false_ne_true)]

lemma norm_chars (x : List Char) :
    ∀ c ∈ norm x, pyLower c = c ∧ allowedChar c = true := by
  intro c hc
  have hc' : c ∈ collapseWs (stripBad (stripTags (x.map pyLower))) :=
    mem_pyStripBoth c _ hc
  rcases collapseGo_subset _ false c hc' with h | rfl
  · constructor
    · exact stripBadGo_chars (fun d => pyLower d = d) pyLower_space _ false
        (stripTagsGo_chars (fun d => pyLower d = d) pyLower_space pyLower_lt
          pyLower_gt _ none
          (fun d hd => by
            rcases List.mem_map.mp hd with ⟨e, -, rfl⟩
            exact pyLower_idem e)
          (by rintro acc ⟨⟩)) c h
    · exact stripBadGo_allowed _ false c h
  · exact ⟨pyLower_space, by decide⟩

lemma norm_tidy (x : List Char) : tidyFrom true (norm x) = true := by
  show tidyFrom true (pyStripRight
    ((collapseGo false (stripBad (stripTags (x.map pyLower)))).dropWhile
      pyIsSpace)) = true
  exact pyStripRight_tidy _ true (dropWhile_tidy _ (collapseGo_tidy _ false))

lemma norm_ends (x : List Char) : norm x = [] ∨ endsNonWs (norm x) = true :=
  pyStripRight_ends
    ((collapseGo false (stripBad (stripTags (x.map pyLower)))).dropWhile
      pyIsSpace)

/-- Claim C7: `norm` is idempotent — normalizing an already-normalized string
changes nothing. -/
theorem norm_idempotent (x : List Char) : norm (norm x) = norm x := by
  have hchars := norm_chars x
  have hlt : '<' ∉ norm x := fun hm => absurd ((hchars '<' hm).2) (by decide)
  show pyStripBoth (collapseWs (stripBad (stripTags ((norm x).map pyLower)))) =
    norm x
  rw [map_pyLower_id _ fun c hc => (hchars c hc).1,
    show stripTags (norm x) = norm x from stripTagsGo_none_id _ hlt,
    show stripBad (norm x) = norm x from
      stripBadGo_id _ (fun c hc => (hchars c hc).2) false,
    show collapseWs (norm x) = norm x from
      collapseGo_id _ false (tidyFrom_of_true _ (norm_tidy x) false)]
  show pyStripRight ((norm x).dropWhile pyIsSpace) = norm x
  rw [dropWhile_id_of_tidy _ (norm_tidy x)]
  rcases norm_ends x with h | h
  · rw [h]
    rfl
  · exact pyStripRight_id_of_ends _ h

/-! ### The empty-run placeholder (claim C9) -/

lemma splitNl_append_headI (xs ys : List Char) (h : '\n' ∉ xs) :
    splitNl (xs ++ ys) = (xs ++ (splitNl ys).headI) :: (splitNl ys).tail := by
  induction xs with
  | nil =>
    rw [List.nil_append]
    rcases hys : splitNl ys with - | ⟨l, ls⟩
    · exact absurd hys (splitNl_ne_nil ys)
    · rfl
  | cons c xs' ih =>
    have hc : ¬c = '\n' := fun h' => h (h' ▸ List.mem_cons_self _ _)
    rw [List.cons_append, splitNl_cons_eq, if_neg hc,
      ih fun hm => h (List.mem_cons_of_mem _ hm)]
    rfl

lemma escape_no_nl (d : List Char) (h : '\n' ∉ d) : '\n' ∉ escape d := by
  intro hm
  rcases List.mem_flatMap.mp hm with ⟨c, hc, hmem⟩
  unfold escChar at hmem
  split at hmem
  · exact absurd hmem (by decide)
  split at hmem
  · exact absurd hmem (by decide)
  split at hmem
  · exact absurd hmem (by decide)
  split at hmem
  · exact absurd hmem (by decide)
  split at hmem
  · exact absurd hmem (by decide)
  · rcases List.mem_singleton.mp hmem with rfl
    exact h hc

/-- Claim C9 (amended): when every bucket of every region is empty, the
rendered message contains one explicit "(nimic relevant după filtrare)"
placeholder line per region — two in total, not a single line — rather than
an empty body (for any date stamp without a newline). -/
theorem nothing_matched_per_region (today : List Char) (B : Buckets)
    (hnl : '\n' ∉ today) (hB : ∀ r c, B r c = []) :
    (splitNl (renderMsg today B)).count placeholderLine = 2 := by
  have hBe : B = emptyBuckets := funext fun r => funext fun c => hB r c
  subst hBe
  have hA : '\n' ∉ hdrPre := by decide
  have hE := escape_no_nl today hnl
  rw [show renderMsg today emptyBuckets =
      hdrPre ++ (escape today ++ msgTail emptyBuckets) from rfl,
    splitNl_append_headI _ _ hA, splitNl_append_headI _ _ hE]
  simp only [List.headI, List.tail_cons]
  rw [List.count_cons_of_ne ?hne]
  case hne =>
    intro hcc
    have hh := congrArg List.head? hcc
    rw [List.head?_append] at hh
    rw [show hdrPre.head? = some 'ğ' from rfl, Option.or_some] at hh
    exact absurd hh (by decide)
  decide

theorem nothing_matched_per_region_witness :
    ('\n' ∉ lc "12 Oct 2025") ∧ (∀ r c, emptyBuckets r c = []) ∧
    (splitNl (renderMsg (lc "12 Oct 2025") emptyBuckets)).count
      placeholderLine = 2 :=
  ⟨by decide, fun _ _ => rfl,
    nothing_matched_per_region (lc "12 Oct 2025") emptyBuckets (by decide)
      fun _ _ => rfl⟩

/-- Counterexample to claim C9 as stated: in a run with zero items in every
bucket, the rendered body contains the "nothing matched" placeholder line
twice — once per region — not a single time. -/
theorem nothing_matched_counterexample :
    ¬ (splitNl (renderMsg (lc "12 Oct 2025") emptyBuckets)).count
        placeholderLine = 1 := by decide
